import Mathlib

/-!
# Verification of the data-pipeline core (extract / transform / load)

Shallow embedding of the repository's data-pipeline core:

* `src/data_pipeline/extract.py` — `extract_data` (the Source Reader),
* `src/data_pipeline/transform.py` — `_clean`, `_encode`, `_split`,
  `transform_data` (Cleaner, Encoder, Splitter),
* `src/data_pipeline/load.py` — `load_data` (the Writer).

Modelling conventions:

* A pandas `DataFrame` flowing through the transform stage is embedded as a
  typed table: numeric feature columns (`Option ℚ`, `none` = `NaN`) plus one
  trailing categorical label column (`Option String`, `none` = `NaN`).  This
  matches the domain contract (spec §3, §6: N binary-indicator feature
  columns and one trailing string label column).
* The Reader is modelled over a generic raw table (`RawTable`), because
  `pd.read_csv` may return anything rectangular, including the empty frame
  `pd.DataFrame()` used as the missing-file sentinel.
* File I/O is embedded by making the outcome of the OS call an explicit
  parameter (e.g. the result of `pd.read_csv`, or whether `os.makedirs`
  fails), and the Python functions become pure state transformers on those
  outcomes.  Code that can raise is embedded with `Except String`.
* `sklearn.model_selection.train_test_split(X, y, test_size=0.2,
  random_state=42, stratify=y)` is embedded following sklearn's
  `StratifiedShuffleSplit._iter_indices` / `_validate_shuffle_split` /
  `_approximate_mode`: the validation checks, the per-class allocation
  arithmetic and the index bookkeeping are reproduced faithfully; the
  Mersenne-Twister pseudorandom permutations drawn from the seeded
  `RandomState(42)` are stood in for by a concrete deterministic
  congruential-keyed permutation (`pseudoShuffle`).  Every theorem below is
  invariant under the choice of that permutation family.
-/

namespace DataPipeline

/-! ## Source Reader (`src/data_pipeline/extract.py`) -/

/-- A raw cell as loaded by `pd.read_csv`: numeric, string, or missing. -/
inductive Cell where
  | num (q : ℚ)
  | str (s : String)
  | na
deriving DecidableEq, Repr

/-- A raw rectangular table as returned by `pd.read_csv`: named columns of
cells.  `pd.DataFrame()` (the sentinel returned on `FileNotFoundError`) is
`⟨[]⟩`. -/
structure RawTable where
  cols : List (String × List Cell)
deriving DecidableEq, Repr

/-- Number of columns of a raw table (`df.shape[1]`). -/
def RawTable.nCols (t : RawTable) : ℕ := t.cols.length

/-- Number of rows of a raw table (`df.shape[0]`): all columns have equal
length; the empty frame has zero rows. -/
def RawTable.nRows (t : RawTable) : ℕ :=
  (t.cols.map (fun c => c.2.length)).foldr max 0

/-- Outcome of the underlying `pd.read_csv` call, made explicit: either a
parsed table or the exception it raised. -/
inductive ReadError where
  | fileNotFound
  | other (msg : String)
deriving DecidableEq, Repr

/-- `extract_data` (extract.py, lines 7–25): attempts `pd.read_csv`; a
`FileNotFoundError` is caught and an empty `pd.DataFrame()` is returned;
any other exception propagates to the caller. -/
def extract_data (readResult : Except ReadError RawTable) : Except ReadError RawTable :=
  match readResult with
  | .ok df => .ok df
  | .error .fileNotFound => .ok ⟨[]⟩
  | .error e => .error e

/-! ## The typed table flowing through the transform stage -/

/-- The table consumed by `transform_data`: feature columns (numeric with
possible `NaN`s) and the trailing label column (strings with possible
`NaN`s).  `featNames`/`feats` are `df.columns[:-1]`, `labelName`/`labels`
are `df.columns[-1]`. -/
structure DataFrame where
  featNames : List String
  feats : List (List (Option ℚ))
  labelName : String
  labels : List (Option String)
deriving DecidableEq, Repr

/-- Truncation toward zero, the semantics of Python `int()` / pandas
`astype(int)` on numeric values. -/
def ratTrunc (q : ℚ) : ℚ := ((Int.tdiv q.num (q.den : ℤ) : ℤ) : ℚ)

/-- Equality of `Except` results is decidable (needed to evaluate the
pipeline on concrete inputs). -/
instance {ε α : Type} [DecidableEq ε] [DecidableEq α] : DecidableEq (Except ε α) := fun x y =>
  match x, y with
  | .ok a, .ok b =>
    if h : a = b then isTrue (by rw [h]) else isFalse (by intro hc; cases hc; exact h rfl)
  | .ok _, .error _ => isFalse (by intro hc; cases hc)
  | .error _, .ok _ => isFalse (by intro hc; cases hc)
  | .error e, .error f =>
    if h : e = f then isTrue (by rw [h]) else isFalse (by intro hc; cases hc; exact h rfl)

/-- pandas `col.astype(int)`: every (present) value is truncated toward
zero.  In the pipeline this is only applied to columns without missing
values (pandas would raise on `NaN`); `getD 0` is the inert default. -/
def astypeIntCol (col : List (Option ℚ)) : List (Option ℚ) :=
  col.map (fun c => some (ratTrunc (c.getD 0)))

/-- The order on `String` is the lexicographic order on the underlying
character lists; this instance routes its decidability through the
character lists so that concrete tables evaluate inside the kernel
(`String.ltb`, the builtin decision procedure, is defined by well-founded
recursion and does not reduce there).  It decides the very same
proposition `s₁ ≤ s₂`. -/
instance (priority := 2000) strDecLE : DecidableRel ((· ≤ ·) : String → String → Prop) :=
  fun a b => decidable_of_iff (a.toList ≤ b.toList) String.le_iff_toList_le.symm

/-- `np.unique` / `LabelEncoder.fit`: the sorted distinct values of a
column (generalised over any linearly ordered scalar type; decidability of
the order and of equality are taken as parameters so that call sites pick
kernel-reducing procedures). -/
def npUnique {α : Type} [LinearOrder α] [DecidableEq α]
    [DecidableRel ((· ≤ ·) : α → α → Prop)] (l : List α) : List α :=
  (l.insertionSort (· ≤ ·)).dedup

/-- pandas `Series.mode()[0]` over the present (non-`NaN`) values of a
column: among the values of maximal frequency, the result of `mode()` is
sorted ascending, so taking element `[0]` yields the least such value;
`none` when there are no present values (then `mode()` is empty and `[0]`
raises). -/
def seriesMode (l : List String) : Option String :=
  let mx := ((npUnique l).map (fun v => l.count v)).foldr max 0
  ((npUnique l).filter (fun v => l.count v = mx)).head?

/-- `_clean` (transform.py, lines 7–45).  If any value is missing: impute
missing feature values with `0`, and missing labels with the mode of the
label column (pandas `mode()` ignores `NaN`, so the mode is computed over
the present labels, after feature imputation and before substitution).
Finally coerce all feature columns with `astype(int)`.  When every label is
missing, `mode()[0]` raises a `KeyError`. -/
def _clean (df : DataFrame) : Except String DataFrame :=
  if (df.feats.any (fun col => col.any Option.isNone)) || df.labels.any Option.isNone then
    let feats1 := df.feats.map (fun col => col.map (fun c => some (c.getD 0)))
    if df.labels.any Option.isNone then
      match seriesMode (df.labels.filterMap id) with
      | none => .error "KeyError: 0"
      | some m =>
          .ok ⟨df.featNames, feats1.map astypeIntCol, df.labelName,
               df.labels.map (fun o => some (o.getD m))⟩
    else
      .ok ⟨df.featNames, feats1.map astypeIntCol, df.labelName, df.labels⟩
  else
    .ok ⟨df.featNames, df.feats.map astypeIntCol, df.labelName, df.labels⟩

/-! ## Encoder (`_encode`, transform.py lines 47–71) -/

/-- The feature table `X = df.drop(columns=[TARGET_COL])`, including the
pandas row index (initially `RangeIndex 0..n-1`, preserved by `iloc`
selection). -/
structure Features where
  names : List String
  cols : List (List (Option ℚ))
  index : List ℕ
deriving DecidableEq, Repr

/-- Row count of a feature table: the length of its index. -/
def Features.nRows (X : Features) : ℕ := X.index.length

/-- `X.iloc[idxs]`: positional row selection, applied to every column and to
the index. -/
def Features.iloc (X : Features) (idxs : List ℕ) : Features :=
  ⟨X.names, X.cols.map (fun col => idxs.map (fun i => col.getD i none)),
   idxs.map (fun i => X.index.getD i 0)⟩

/-- `_encode`: `classes_ = np.unique(y_raw)` (sorted distinct labels);
`fit_transform` maps every label to its position among the sorted classes;
`type_mapping = dict(zip(classes_, transform(classes_)))`; the encoded
column is a Series named `'target'`.  The cleaned frame has no missing
labels, so `filterMap id` reads off the label column. -/
def _encode (df : DataFrame) :
    Features × (String × List ℕ) × List (String × ℕ) :=
  let y_raw := df.labels.filterMap id
  let classes := npUnique y_raw
  let y_encoded := y_raw.map (fun s => classes.indexOf s)
  let type_mapping := classes.zip (classes.map (fun s => classes.indexOf s))
  (⟨df.featNames, df.feats, List.range df.labels.length⟩,
   ("target", y_encoded), type_mapping)

/-- Decoding through the inverse of the label mapping: find the (unique)
key whose code is `c`. -/
def invLookup (m : List (String × ℕ)) (c : ℕ) : Option String :=
  (m.find? (fun p => p.2 = c)).map (fun p => p.1)

/-! ## Splitter (`_split`, transform.py lines 73–102)

`train_test_split(X, y, test_size=0.2, random_state=42, stratify=y)`
delegates to `StratifiedShuffleSplit`.  The embedding reproduces
`_validate_shuffle_split` (`n_test = ceil(0.2 * n)`, `n_train = n -
n_test`, empty-train check), the class bookkeeping and error checks of
`_iter_indices`, and `_approximate_mode`'s largest-remainder allocation.
The seeded Mersenne-Twister permutations are stood in for by
`pseudoShuffle`; no theorem below depends on which permutation family is
used. -/

/-- A deterministic key for the stand-in pseudorandom permutation (a linear
congruential mix of seed and position). -/
def lcgMix (seed i : ℕ) : ℕ := (1103515245 * (seed + i) + 12345) % 2147483648

/-- Stand-in for `rng.permutation`: reorder a list by sorting on a
congruential key of the original positions.  It is a permutation of its
input for every seed. -/
def pseudoShuffle {α : Type} (seed : ℕ) (l : List α) : List α :=
  ((l.enum.map (fun p => (lcgMix seed p.1, p.2))).insertionSort
    (fun a b => a.1 ≤ b.1)).map (fun p => p.2)

/-- Add one to the entry of a list at a given position (no-op out of
range). -/
def bumpAt : List ℕ → ℕ → List ℕ
  | [], _ => []
  | c :: cs, 0 => (c + 1) :: cs
  | c :: cs, i + 1 => c :: bumpAt cs i

/-- sklearn `_approximate_mode`, step 1: `floored = np.floor(continuous)`
where `continuous = class_counts / class_counts.sum() * n_draws` (the
floor of `c * n_draws / total` in exact arithmetic). -/
def amFloored (class_counts : List ℕ) (n_draws : ℕ) : List ℕ :=
  class_counts.map (fun c => c * n_draws / class_counts.sum)

/-- The fractional remainder of class `i`'s continuous share, scaled by
`total` to stay in `ℕ`: `remainder_i = continuous_i - floored_i =
(c_i * n_draws mod total) / total`. -/
def amRem (class_counts : List ℕ) (n_draws : ℕ) (i : ℕ) : ℕ :=
  class_counts.getD i 0 * n_draws % class_counts.sum

/-- sklearn `_approximate_mode`, step 2: the classes with a strictly
positive remainder (only those are eligible for an extra draw —
`np.where(remainder == value)` over the sorted distinct positive
remainder values). -/
def amPositives (class_counts : List ℕ) (n_draws : ℕ) : List ℕ :=
  (List.range class_counts.length).filter (fun i => 0 < amRem class_counts n_draws i)

/-- The eligible classes ordered by decreasing remainder (sklearn walks the
distinct remainder values largest first; ties among equal remainders are
broken by `rng.choice`, stood in for here by position order, which is what
the stable sort yields). -/
def amOrder (class_counts : List ℕ) (n_draws : ℕ) : List ℕ :=
  (amPositives class_counts n_draws).insertionSort
    (fun i j => amRem class_counts n_draws j ≤ amRem class_counts n_draws i)

/-- `need_to_add = n_draws - floored.sum()`. -/
def amNeed (class_counts : List ℕ) (n_draws : ℕ) : ℕ :=
  n_draws - (amFloored class_counts n_draws).sum

/-- sklearn `_approximate_mode(class_counts, n_draws, rng)`: allocate
`n_draws` draws among the classes proportionally to `class_counts`; take
the floor of each continuous share, then hand the remaining draws, one
each, to the classes with the largest remainders. -/
def approximate_mode (class_counts : List ℕ) (n_draws : ℕ) : List ℕ :=
  ((amOrder class_counts n_draws).take (amNeed class_counts n_draws)).foldl
    bumpAt (amFloored class_counts n_draws)

/-- The four partitions returned by `_split` as the `result` dict. -/
structure SplitDfs where
  X_train : Features
  X_test : Features
  y_train : String × List ℕ
  y_test : String × List ℕ
deriving DecidableEq, Repr

/-- `_validate_shuffle_split`: `n_test = ceil(test_size * n_samples)` with
`test_size = 0.2`, i.e. `⌈n / 5⌉`. -/
def nTest (n : ℕ) : ℕ := (n + 4) / 5

/-- `_validate_shuffle_split`: `n_train = n_samples - n_test` (when
`train_size is None`). -/
def nTrain (n : ℕ) : ℕ := n - nTest n

/-- `classes, y_indices = np.unique(y, return_inverse=True)`. -/
def splitClasses (y : List ℕ) : List ℕ := npUnique y

/-- `class_counts = np.bincount(y_indices)`: occurrences of each class, in
class (sorted) order. -/
def splitCounts (y : List ℕ) : List ℕ :=
  (splitClasses y).map (fun c => y.count c)

/-- `class_indices = np.split(np.argsort(y_indices, kind='mergesort'), ...)`:
for each class, the row positions holding that class, in ascending order
(a stable argsort groups equal keys in original order). -/
def classIndices (y : List ℕ) : List (List ℕ) :=
  (splitClasses y).map (fun c => (List.range y.length).filter (fun i => y.getD i 0 = c))

/-- `n_i = _approximate_mode(class_counts, n_train, rng)`. -/
def splitAllocTrain (n : ℕ) (y : List ℕ) : List ℕ :=
  approximate_mode (splitCounts y) (nTrain n)

/-- `class_counts_remaining = class_counts - n_i`. -/
def splitCountsRemaining (n : ℕ) (y : List ℕ) : List ℕ :=
  List.zipWith (fun a b => a - b) (splitCounts y) (splitAllocTrain n y)

/-- `t_i = _approximate_mode(class_counts_remaining, n_test, rng)`. -/
def splitAllocTest (n : ℕ) (y : List ℕ) : List ℕ :=
  approximate_mode (splitCountsRemaining n y) (nTest n)

/-- `permutation = rng.permutation(class_counts[i]);
perm_indices_class_i = class_indices[i].take(permutation)`: the rows of
class `k`, pseudorandomly reordered. -/
def perClassPerm (y : List ℕ) (k : ℕ) : List ℕ :=
  pseudoShuffle (43 + k) ((classIndices y).getD k [])

/-- `train.extend(perm_indices_class_i[:n_i[i]])` for every class. -/
def trainPartsOf (n : ℕ) (y : List ℕ) : List (List ℕ) :=
  (List.range (splitClasses y).length).map
    (fun k => (perClassPerm y k).take ((splitAllocTrain n y).getD k 0))

/-- `test.extend(perm_indices_class_i[n_i[i]:n_i[i] + t_i[i]])` for every
class. -/
def testPartsOf (n : ℕ) (y : List ℕ) : List (List ℕ) :=
  (List.range (splitClasses y).length).map
    (fun k => ((perClassPerm y k).drop ((splitAllocTrain n y).getD k 0)).take
      ((splitAllocTest n y).getD k 0))

/-- `train = rng.permutation(train)`: the final training row positions. -/
def trainIndices (n : ℕ) (y : List ℕ) : List ℕ :=
  pseudoShuffle 1 (trainPartsOf n y).flatten

/-- `test = rng.permutation(test)`: the final test row positions. -/
def testIndices (n : ℕ) (y : List ℕ) : List ℕ :=
  pseudoShuffle 2 (testPartsOf n y).flatten

/-- `_split`: stratified 80/20 split with fixed seed.  Mirrors
`train_test_split(..., test_size=0.2, random_state=42, stratify=y)`:
consistency check on the input lengths, `n_test = ceil(0.2 * n)`,
`n_train = n - n_test`, the `ValueError` guards of
`StratifiedShuffleSplit` (empty train set, a class with fewer than 2
members, fewer train or test slots than classes), per-class allocation by
`_approximate_mode`, per-class index permutation, and a final permutation
of each side; both `X` and `y` are then subscripted by the same index
lists. -/
def _split (X : Features) (y : String × List ℕ) : Except String SplitDfs :=
  if X.index.length ≠ y.2.length then
    .error "Found input variables with inconsistent numbers of samples"
  else if nTrain X.index.length = 0 then
    .error "With n_samples, test_size=0.2 and train_size=None, the resulting train set will be empty"
  else if (splitCounts y.2).any (fun c => c < 2) then
    .error "The least populated class in y has only 1 member, which is too few. The minimum number of groups for any class cannot be less than 2."
  else if nTrain X.index.length < (splitClasses y.2).length then
    .error "The train_size should be greater or equal to the number of classes"
  else if nTest X.index.length < (splitClasses y.2).length then
    .error "The test_size should be greater or equal to the number of classes"
  else
    .ok ⟨X.iloc (trainIndices X.index.length y.2),
         X.iloc (testIndices X.index.length y.2),
         (y.1, (trainIndices X.index.length y.2).map (fun i => y.2.getD i 0)),
         (y.1, (testIndices X.index.length y.2).map (fun i => y.2.getD i 0))⟩

/-- `transform_data` (transform.py, lines 104–108): Cleaner → Encoder →
Splitter, returning the four partitions and the label mapping. -/
def transform_data (df : DataFrame) :
    Except String (SplitDfs × List (String × ℕ)) :=
  match _clean df with
  | .error e => .error e
  | .ok cleaned =>
    let r := _encode cleaned
    match _split r.1 r.2.1 with
    | .error e => .error e
    | .ok split_df => .ok (split_df, r.2.2)

/-! ## Writer (`load_data`, load.py lines 8–38) -/

/-- A file written by the Writer: a CSV with a header row (written with
`index=False`, so no row-number column), or the JSON mapping file. -/
inductive Artifact where
  | frame (header : List String) (cols : List (List (Option ℚ)))
  | series (header : String) (vals : List ℕ)
  | jsonMap (m : List (String × ℕ))
deriving DecidableEq, Repr

/-- `load_data(dfs_dict, path)`: `os.makedirs(path, exist_ok=True)` is
attempted first — its outcome is the explicit parameter `mkdirFail`
(`none` = success or directory already exists; `some e` = the `OSError`
message).  On an `OSError` the Python code prints the error and `return`s:
nothing is written and *no exception is raised* (the second component of
the result, the exception surfaced to the caller, is `none` in both
branches).  On success every partition is written as `<key>.csv` (a Series
is converted with `to_frame()`, so its header is the series name), followed
by `label_mapping.json`. -/
def load_data (dfs_dict : SplitDfs × List (String × ℕ)) (path : String)
    (mkdirFail : Option String) : List (String × Artifact) × Option String :=
  match mkdirFail with
  | some _ => ([], none)
  | none =>
    let s := dfs_dict.1
    ([ (path ++ "/X_train.csv", .frame s.X_train.names s.X_train.cols),
       (path ++ "/X_test.csv", .frame s.X_test.names s.X_test.cols),
       (path ++ "/y_train.csv", .series s.y_train.1 s.y_train.2),
       (path ++ "/y_test.csv", .series s.y_test.1 s.y_test.2),
       (path ++ "/label_mapping.json", .jsonMap dfs_dict.2) ], none)

/-- The tie-break the specification ascribes to the Cleaner's mode
imputation (C6): among the most frequent label values, pick the one that a
frequency-count traversal in first-occurrence order encounters first.
This definition follows the claim's words, to be compared against the
behaviour of `_clean` (which, through pandas `mode()`, sorts the modes and
takes the smallest). -/
def firstEncounterMode (l : List String) : Option String :=
  let distinct := l.foldl (fun acc a => if a ∈ acc then acc else acc ++ [a]) []
  let mx := (distinct.map (fun v => l.count v)).foldr max 0
  (distinct.filter (fun v => l.count v = mx)).head?

/-! ## Concrete tables used to instantiate the claims -/

/-- The spec's C1 scenario: 50 rows, one label value (`"B"`) occurring
exactly once. -/
def c1df : DataFrame :=
  ⟨["f"], [List.replicate 50 (some 1)], "L",
   List.replicate 49 (some "A") ++ [some "B"]⟩

/-- Dummy artifact set handed to the Writer. -/
def c2data : SplitDfs × List (String × ℕ) :=
  (⟨⟨["f"], [[]], []⟩, ⟨["f"], [[]], []⟩, ("target", []), ("target", [])⟩,
   [("A", 0)])

def c3dfA : DataFrame := ⟨["f"], [[some 1, some 0]], "L", [some "B", some "A"]⟩

def c3dfB : DataFrame := ⟨["g"], [[some 0, some 1]], "L", [some "A", some "B"]⟩

/-- A table whose only feature cell holds the non-integral value `5/2`. -/
def c5cexdf : DataFrame := ⟨["f"], [[some (mkRat 5 2)]], "L", [some "x"]⟩

/-- A table with a missing feature cell, a fractional feature cell and a
missing label. -/
def c5wdf : DataFrame :=
  ⟨["f"], [[none, some 1, some (mkRat 5 2)]], "L", [some "A", some "A", none]⟩

def c5wout : DataFrame := ((_clean c5wdf).toOption).getD ⟨[], [], "", []⟩

/-- A table with a missing label and a tie between the two most frequent
labels, `"A"` and `"B"`, where `"B"` is encountered first. -/
def c6df : DataFrame :=
  ⟨["f"], [[some 0, some 0, some 0, some 0, some 0]], "L",
   [some "B", some "B", some "A", some "A", none]⟩

def c6out : DataFrame := ((_clean c6df).toOption).getD ⟨[], [], "", []⟩

def c7X : Features := ⟨["f"], [List.replicate 10 (some 1)], List.range 10⟩

def c7y : String × List ℕ := ("target", [0, 0, 0, 0, 0, 1, 1, 1, 1, 1])

def c7s : SplitDfs :=
  ((_split c7X c7y).toOption).getD ⟨⟨[], [], []⟩, ⟨[], [], []⟩, ("", []), ("", [])⟩

def c9df : DataFrame :=
  ⟨["f"], [List.replicate 10 (some 1)], "L",
   List.replicate 5 (some "A") ++ List.replicate 5 (some "B")⟩

def c10df : DataFrame :=
  ⟨["f"], [List.replicate 10 (some 1)], "Disease",
   List.replicate 5 (some "A") ++ List.replicate 5 (some "B")⟩

def c10r : SplitDfs × List (String × ℕ) :=
  ((transform_data c10df).toOption).getD
    (⟨⟨[], [], []⟩, ⟨[], [], []⟩, ("", []), ("", [])⟩, [])

/-! ## Generic list lemmas used by the development -/

/-- Reading every position of a list with `getD` reproduces the list. -/
theorem map_getD_range {α : Type} (l : List α) (d : α) :
    (List.range l.length).map (fun i => l.getD i d) = l := by
  induction l with
  | nil => rfl
  | cons a t ih =>
    have : List.range (t.length + 1) = 0 :: (List.range t.length).map Nat.succ :=
      List.range_succ_eq_map t.length
    simp only [List.length_cons, this, List.map_cons, List.map_map]
    refine congrArg (a :: ·) ?_
    have : ((fun i => (a :: t).getD i d) ∘ Nat.succ) = fun i => t.getD i d := by
      funext i; rfl
    rw [this, ih]

/-- Composing `map f` over `range` through `getD`. -/
theorem map_f_getD_range {α β : Type} (l : List α) (d : α) (f : α → β) :
    (List.range l.length).map (fun i => f (l.getD i d)) = l.map f := by
  have h := congrArg (List.map f) (map_getD_range l d)
  rw [List.map_map] at h
  exact h

/-- The sum of the remainders of a family of indices is bounded by the
number of indices with a positive remainder times the largest possible
remainder. -/
theorem sum_map_le_filter_pos {r : ℕ → ℕ} (B : ℕ) (is : List ℕ)
    (hB : ∀ i ∈ is, r i ≤ B) :
    (is.map r).sum ≤ (is.filter (fun i => 0 < r i)).length * B := by
  induction is with
  | nil => simp
  | cons i t ih =>
    have ht : ∀ j ∈ t, r j ≤ B := fun j hj => hB j (List.mem_cons_of_mem _ hj)
    by_cases h : 0 < r i
    · have : (List.filter (fun i => decide (0 < r i)) (i :: t)) =
          i :: t.filter (fun i => decide (0 < r i)) := by
        simp [List.filter, h]
      simp only [List.map_cons, List.sum_cons, this, List.length_cons]
      have := ih ht
      have hi := hB i (List.mem_cons_self i t)
      calc r i + (t.map r).sum ≤ B + (t.filter (fun i => 0 < r i)).length * B := by
            exact Nat.add_le_add hi this
        _ = ((t.filter (fun i => 0 < r i)).length + 1) * B := by ring
    · have hz : r i = 0 := Nat.eq_zero_of_not_pos h
      have : (List.filter (fun i => decide (0 < r i)) (i :: t)) =
          t.filter (fun i => decide (0 < r i)) := by
        simp [List.filter, h]
      simp only [List.map_cons, List.sum_cons, this, hz, Nat.zero_add]
      exact ih ht


/-! ## Properties of the allocation arithmetic (`_approximate_mode`) -/

theorem bumpAt_length (l : List ℕ) (i : ℕ) : (bumpAt l i).length = l.length := by
  induction l generalizing i with
  | nil => rfl
  | cons c cs ih =>
    cases i with
    | zero => rfl
    | succ j => simpa [bumpAt] using ih j

theorem bumpAt_sum (l : List ℕ) (i : ℕ) (h : i < l.length) :
    (bumpAt l i).sum = l.sum + 1 := by
  induction l generalizing i with
  | nil => simp at h
  | cons c cs ih =>
    cases i with
    | zero => simp [bumpAt]; omega
    | succ j =>
      have hj : j < cs.length := by simpa using h
      simp [bumpAt, ih j hj]; omega

theorem bumpAt_getD (l : List ℕ) (i j : ℕ) (h : j < l.length) :
    (bumpAt l i).getD j 0 = l.getD j 0 + if j = i then 1 else 0 := by
  induction l generalizing i j with
  | nil => simp at h
  | cons c cs ih =>
    cases i with
    | zero =>
      cases j with
      | zero => simp [bumpAt]
      | succ j' => simp [bumpAt]
    | succ i' =>
      cases j with
      | zero => simp [bumpAt]
      | succ j' =>
        have hj : j' < cs.length := by simpa using h
        simpa [bumpAt] using ih i' j' hj

theorem foldl_bumpAt_length (ch : List ℕ) (l : List ℕ) :
    (ch.foldl bumpAt l).length = l.length := by
  induction ch generalizing l with
  | nil => rfl
  | cons i t ih => simpa [List.foldl_cons, bumpAt_length] using ih (bumpAt l i)

theorem foldl_bumpAt_sum (ch : List ℕ) (l : List ℕ) (h : ∀ i ∈ ch, i < l.length) :
    (ch.foldl bumpAt l).sum = l.sum + ch.length := by
  induction ch generalizing l with
  | nil => simp
  | cons i t ih =>
    have hi : i < l.length := h i (List.mem_cons_self i t)
    have ht : ∀ j ∈ t, j < (bumpAt l i).length := by
      intro j hj; rw [bumpAt_length]; exact h j (List.mem_cons_of_mem _ hj)
    simp only [List.foldl_cons, ih (bumpAt l i) ht, bumpAt_sum l i hi, List.length_cons]
    omega

theorem foldl_bumpAt_getD (ch : List ℕ) (l : List ℕ) (j : ℕ) (h : j < l.length) :
    (ch.foldl bumpAt l).getD j 0 = l.getD j 0 + ch.count j := by
  induction ch generalizing l with
  | nil => simp
  | cons i t ih =>
    have hb : j < (bumpAt l i).length := by rw [bumpAt_length]; exact h
    rw [List.foldl_cons, ih (bumpAt l i) hb, bumpAt_getD l i j h, List.count_cons]
    by_cases hij : j = i
    · subst hij
      simp
      omega
    · have hne : ¬ (i == j) = true := by simpa using fun hc => hij hc.symm
      simp [hij, hne]

/-- `getD` through `map`. -/
theorem getD_map {α β : Type} (l : List α) (f : α → β) (j : ℕ) (h : j < l.length)
    (d : α) (d' : β) : (l.map f).getD j d' = f (l.getD j d) := by
  induction l generalizing j with
  | nil => simp at h
  | cons a t ih =>
    cases j with
    | zero => simp
    | succ j' =>
      have hj : j' < t.length := by simpa using h
      simpa using ih j' hj

theorem sum_map_mul (l : List ℕ) (n : ℕ) :
    (l.map (fun c => c * n)).sum = l.sum * n := by
  induction l with
  | nil => simp
  | cons a t ih => simp [ih, Nat.add_mul]

theorem sum_map_mul_left (l : List ℕ) (f : ℕ → ℕ) (k : ℕ) :
    (l.map (fun c => k * f c)).sum = k * (l.map f).sum := by
  induction l with
  | nil => simp
  | cons a t ih => simp [ih, Nat.mul_add]

theorem sum_map_split (l : List ℕ) (f g h : ℕ → ℕ) (hfg : ∀ a ∈ l, f a = g a + h a) :
    (l.map f).sum = (l.map g).sum + (l.map h).sum := by
  induction l with
  | nil => simp
  | cons a t ih =>
    have ha := hfg a (List.mem_cons_self a t)
    have ht : ∀ a ∈ t, f a = g a + h a := fun a haa => hfg a (List.mem_cons_of_mem _ haa)
    simp only [List.map_cons, List.sum_cons, ha, ih ht]
    omega

theorem approximate_mode_length (cc : List ℕ) (n : ℕ) :
    (approximate_mode cc n).length = cc.length := by
  rw [approximate_mode, foldl_bumpAt_length, amFloored, List.length_map]

/-- The scaled remainders over all positions sum to `total * need`. -/
theorem amRem_range_sum (cc : List ℕ) (n : ℕ) (h0 : 0 < cc.sum) (_h1 : n ≤ cc.sum) :
    ((List.range cc.length).map (amRem cc n)).sum = cc.sum * amNeed cc n ∧
      (amFloored cc n).sum ≤ n := by
  have hkey : ∀ c ∈ cc, c * n = cc.sum * (c * n / cc.sum) + c * n % cc.sum := by
    intro c _
    exact (Nat.div_add_mod (c * n) cc.sum).symm
  have e2 : (cc.map (fun c => c * n)).sum =
      cc.sum * (amFloored cc n).sum + (cc.map (fun c => c * n % cc.sum)).sum := by
    rw [sum_map_split cc _ (fun c => cc.sum * (c * n / cc.sum))
      (fun c => c * n % cc.sum) hkey, sum_map_mul_left, amFloored]
  have e1 : (cc.map (fun c => c * n)).sum = cc.sum * n := by
    rw [sum_map_mul, Nat.mul_comm]
  have hsplit : cc.sum * n = cc.sum * (amFloored cc n).sum +
      (cc.map (fun c => c * n % cc.sum)).sum := by rw [← e1, e2]
  have hFle : (amFloored cc n).sum ≤ n := by
    have hle : cc.sum * (amFloored cc n).sum ≤ cc.sum * n := by omega
    exact Nat.le_of_mul_le_mul_left hle h0
  have hRr : ((List.range cc.length).map (amRem cc n)).sum =
      (cc.map (fun c => c * n % cc.sum)).sum := by
    have h2 : (List.range cc.length).map (amRem cc n) =
        (List.range cc.length).map (fun i => cc.getD i 0 * n % cc.sum) := by
      refine List.map_congr_left ?_
      intro i _
      rw [amRem]
    rw [h2]
    exact congrArg List.sum (map_f_getD_range cc 0 (fun c => c * n % cc.sum))
  have hsub : cc.sum * ((n - (amFloored cc n).sum) + (amFloored cc n).sum) =
      cc.sum * (n - (amFloored cc n).sum) + cc.sum * (amFloored cc n).sum :=
    Nat.mul_add _ _ _
  rw [Nat.sub_add_cancel hFle] at hsub
  constructor
  · rw [hRr, amNeed]
    omega
  · exact hFle

/-- There are at least `need` classes with a positive remainder, so the
extra draws can all be handed out. -/
theorem amNeed_le_positives (cc : List ℕ) (n : ℕ) (h0 : 0 < cc.sum) (h1 : n ≤ cc.sum) :
    amNeed cc n ≤ (amPositives cc n).length := by
  obtain ⟨hsum, _⟩ := amRem_range_sum cc n h0 h1
  have hbound : ((List.range cc.length).map (amRem cc n)).sum ≤
      (amPositives cc n).length * (cc.sum - 1) := by
    rw [amPositives]
    refine sum_map_le_filter_pos (cc.sum - 1) _ ?_
    intro i _
    have := Nat.mod_lt (cc.getD i 0 * n) h0
    rw [amRem]
    omega
  have h2 : cc.sum * amNeed cc n ≤ cc.sum * (amPositives cc n).length := by
    calc cc.sum * amNeed cc n = ((List.range cc.length).map (amRem cc n)).sum := hsum.symm
      _ ≤ (amPositives cc n).length * (cc.sum - 1) := hbound
      _ ≤ (amPositives cc n).length * cc.sum := Nat.mul_le_mul_left _ (Nat.sub_le _ _)
      _ = cc.sum * (amPositives cc n).length := Nat.mul_comm _ _
  exact Nat.le_of_mul_le_mul_left h2 h0

theorem amOrder_length (cc : List ℕ) (n : ℕ) :
    (amOrder cc n).length = (amPositives cc n).length := by
  rw [amOrder]
  exact (List.perm_insertionSort _ _).length_eq

theorem mem_amOrder_take {cc : List ℕ} {n m i : ℕ}
    (h : i ∈ (amOrder cc n).take m) : i ∈ amPositives cc n := by
  have h1 : i ∈ amOrder cc n := List.mem_of_mem_take h
  rw [amOrder] at h1
  exact ((List.perm_insertionSort _ _).mem_iff).mp h1

/-- The allocation of `_approximate_mode` sums to exactly `n_draws`. -/
theorem approximate_mode_sum (cc : List ℕ) (n : ℕ)
    (h0 : 0 < cc.sum) (h1 : n ≤ cc.sum) :
    (approximate_mode cc n).sum = n := by
  obtain ⟨_, hFle⟩ := amRem_range_sum cc n h0 h1
  have hneed := amNeed_le_positives cc n h0 h1
  have htakelen : ((amOrder cc n).take (amNeed cc n)).length = amNeed cc n := by
    rw [List.length_take, amOrder_length]
    omega
  have hmem : ∀ i ∈ (amOrder cc n).take (amNeed cc n), i < (amFloored cc n).length := by
    intro i hi
    have h2 : i ∈ amPositives cc n := mem_amOrder_take hi
    rw [amPositives] at h2
    have h3 : i ∈ List.range cc.length := List.mem_of_mem_filter h2
    rw [amFloored, List.length_map]
    exact List.mem_range.mp h3
  rw [approximate_mode, foldl_bumpAt_sum _ _ hmem, htakelen, amNeed]
  omega

/-- Every class receives at most as many draws as it has members. -/
theorem approximate_mode_getD_le (cc : List ℕ) (n : ℕ)
    (h0 : 0 < cc.sum) (h1 : n ≤ cc.sum) (j : ℕ) :
    (approximate_mode cc n).getD j 0 ≤ cc.getD j 0 := by
  by_cases hj : j < cc.length
  case neg =>
    have hlen : (approximate_mode cc n).length ≤ j := by
      rw [approximate_mode_length]; omega
    rw [List.getD_eq_default _ _ hlen]
    exact Nat.zero_le _
  case pos =>
  have hjf : j < (amFloored cc n).length := by
    rw [amFloored, List.length_map]; exact hj
  rw [approximate_mode, foldl_bumpAt_getD _ _ _ hjf]
  have hfl : (amFloored cc n).getD j 0 = cc.getD j 0 * n / cc.sum := by
    rw [amFloored]; exact getD_map cc _ j hj 0 0
  have hDM := Nat.div_add_mod (cc.getD j 0 * n) cc.sum
  have hCle : cc.getD j 0 * n ≤ cc.sum * cc.getD j 0 := by
    calc cc.getD j 0 * n ≤ cc.getD j 0 * cc.sum := Nat.mul_le_mul_left _ h1
      _ = cc.sum * cc.getD j 0 := Nat.mul_comm _ _
  have hnodup : ((amOrder cc n).take (amNeed cc n)).Nodup := by
    have hp : (amPositives cc n).Nodup := by
      rw [amPositives]
      exact (List.nodup_range _).filter _
    have ho : (amOrder cc n).Nodup := by
      rw [amOrder]
      exact ((List.perm_insertionSort _ _).nodup_iff).mpr hp
    exact (List.take_sublist _ _).nodup ho
  by_cases hmem : j ∈ (amOrder cc n).take (amNeed cc n)
  case pos =>
    have hcnt : ((amOrder cc n).take (amNeed cc n)).count j ≤ 1 :=
      List.nodup_iff_count_le_one.mp hnodup j
    have hjp : j ∈ amPositives cc n := mem_amOrder_take hmem
    rw [amPositives] at hjp
    have hrempos : 0 < amRem cc n j := by simpa using List.of_mem_filter hjp
    rw [amRem] at hrempos
    have hlt : (amFloored cc n).getD j 0 < cc.getD j 0 := by
      rw [hfl]
      have h2 : cc.sum * (cc.getD j 0 * n / cc.sum) < cc.sum * cc.getD j 0 := by omega
      exact Nat.lt_of_mul_lt_mul_left h2
    omega
  case neg =>
    rw [List.count_eq_zero_of_not_mem hmem, hfl]
    have h2 : cc.sum * (cc.getD j 0 * n / cc.sum) ≤ cc.sum * cc.getD j 0 := by omega
    have := Nat.le_of_mul_le_mul_left h2 h0
    omega

/-! ## Properties of the stand-in permutation -/

theorem pseudoShuffle_length {α : Type} (seed : ℕ) (l : List α) :
    (pseudoShuffle seed l).length = l.length := by
  simp only [pseudoShuffle]
  rw [List.length_map, (List.perm_insertionSort _ _).length_eq, List.length_map,
    List.enum_length]

theorem zipWith_sub_sum (l1 l2 : List ℕ) (hlen : l2.length = l1.length)
    (hle : ∀ j, l2.getD j 0 ≤ l1.getD j 0) :
    (List.zipWith (fun a b => a - b) l1 l2).sum + l2.sum = l1.sum := by
  induction l1 generalizing l2 with
  | nil =>
    have : l2 = [] := List.eq_nil_of_length_eq_zero (by simpa using hlen)
    subst this
    simp
  | cons a t ih =>
    cases l2 with
    | nil => simp at hlen
    | cons b u =>
      have h0 : b ≤ a := hle 0
      have hlen' : u.length = t.length := by simpa using hlen
      have hle' : ∀ j, u.getD j 0 ≤ t.getD j 0 := fun j => hle (j + 1)
      simp only [List.zipWith_cons_cons, List.sum_cons]
      have := ih u hlen' hle'
      omega

theorem getD_zipWith (f : ℕ → ℕ → ℕ) (l1 l2 : List ℕ) (j : ℕ)
    (h1 : j < l1.length) (h2 : j < l2.length) :
    (List.zipWith f l1 l2).getD j 0 = f (l1.getD j 0) (l2.getD j 0) := by
  induction l1 generalizing l2 j with
  | nil => simp at h1
  | cons a t ih =>
    cases l2 with
    | nil => simp at h2
    | cons b u =>
      cases j with
      | zero => simp
      | succ j' =>
        have h1' : j' < t.length := by simpa using h1
        have h2' : j' < u.length := by simpa using h2
        simpa using ih u j' h1' h2'

theorem pseudoShuffle_perm {α : Type} (seed : ℕ) (l : List α) :
    (pseudoShuffle seed l).Perm l := by
  simp only [pseudoShuffle]
  have h1 := (List.perm_insertionSort
    (fun a b : ℕ × α => a.1 ≤ b.1) (l.enum.map (fun p => (lcgMix seed p.1, p.2)))).map
    (fun p : ℕ × α => p.2)
  rw [List.map_map] at h1
  have h2 : (l.enum.map ((fun p : ℕ × α => p.2) ∘ (fun p : ℕ × α => (lcgMix seed p.1, p.2)))) = l := by
    have : ((fun p : ℕ × α => p.2) ∘ (fun p : ℕ × α => (lcgMix seed p.1, p.2))) =
        (fun p : ℕ × α => p.2) := rfl
    rw [this, List.enum_map_snd]
  rw [h2] at h1
  exact h1

/-! ## Row accounting of the stratified split -/

theorem nTest_le_self {n : ℕ} (h : 0 < n) : nTest n ≤ n := by
  rw [nTest]; omega

theorem nTest_pos {n : ℕ} (h : 0 < n) : 0 < nTest n := by
  rw [nTest]; omega

theorem nTrain_add_nTest {n : ℕ} (h : 0 < n) : nTrain n + nTest n = n := by
  have := nTest_le_self h
  rw [nTrain]; omega

/-- The per-class occurrence counts sum to the number of rows. -/
theorem splitCounts_sum (y : List ℕ) : (splitCounts y).sum = y.length := by
  rw [splitCounts, splitClasses, npUnique]
  have hperm : (y.insertionSort (· ≤ ·)).Perm y := List.perm_insertionSort _ _
  have hmap : (y.insertionSort (· ≤ ·)).dedup.map (fun c => y.count c) =
      (y.insertionSort (· ≤ ·)).dedup.map (fun c => (y.insertionSort (· ≤ ·)).count c) := by
    refine List.map_congr_left ?_
    intro c _
    exact (hperm.count_eq c).symm
  rw [hmap, List.sum_map_count_dedup_eq_length, hperm.length_eq]

theorem countP_getD_range {α : Type} (l : List α) (p : α → Bool) (d : α) :
    ((List.range l.length).filter (fun i => p (l.getD i d))).length = l.countP p := by
  rw [← List.countP_eq_length_filter]
  have h1 : l.countP p = ((List.range l.length).map (fun i => l.getD i d)).countP p := by
    rw [map_getD_range]
  rw [h1, List.countP_map]
  rfl

theorem splitCounts_length (y : List ℕ) :
    (splitCounts y).length = (splitClasses y).length := by
  rw [splitCounts, List.length_map]

/-- The block of row positions of class `k` has exactly as many entries as
the class has occurrences. -/
theorem classIndices_getD_length (y : List ℕ) (k : ℕ)
    (hk : k < (splitClasses y).length) :
    ((classIndices y).getD k []).length = (splitCounts y).getD k 0 := by
  rw [classIndices, splitCounts,
    getD_map (splitClasses y) _ k hk 0 [], getD_map (splitClasses y) _ k hk 0 0]
  have hfun : (fun i => decide (y.getD i 0 = (splitClasses y).getD k 0)) =
      (fun i => (fun x => decide (x = (splitClasses y).getD k 0)) (y.getD i 0)) := rfl
  rw [hfun, countP_getD_range y (fun x => decide (x = (splitClasses y).getD k 0)) 0]
  rw [List.count]
  refine List.countP_congr ?_
  intro x _
  by_cases hx : x = (splitClasses y).getD k 0 <;> simp [hx]

theorem splitAllocTrain_length (n : ℕ) (y : List ℕ) :
    (splitAllocTrain n y).length = (splitClasses y).length := by
  rw [splitAllocTrain, approximate_mode_length, splitCounts_length]

/-- Under the `_split` guards, the final training index list has exactly
`n_train` entries. -/
theorem trainIndices_length (n : ℕ) (y : List ℕ) (hn : n = y.length)
    (hpos : 0 < nTrain n) : (trainIndices n y).length = nTrain n := by
  have hny : 0 < n := by rw [nTrain] at hpos; omega
  have hsum : (splitCounts y).sum = y.length := splitCounts_sum y
  have h0 : 0 < (splitCounts y).sum := by omega
  have h1 : nTrain n ≤ (splitCounts y).sum := by
    rw [hsum, ← hn, nTrain]; omega
  rw [trainIndices, pseudoShuffle_length, List.length_flatten, trainPartsOf, List.map_map]
  have hcong : ∀ k ∈ List.range (splitClasses y).length,
      (List.length ∘ fun k => (perClassPerm y k).take ((splitAllocTrain n y).getD k 0)) k
        = (fun k => (splitAllocTrain n y).getD k 0) k := by
    intro k hk
    have hkK : k < (splitClasses y).length := List.mem_range.mp hk
    have hplen : (perClassPerm y k).length = (splitCounts y).getD k 0 := by
      rw [perClassPerm, pseudoShuffle_length, classIndices_getD_length y k hkK]
    have hle : (splitAllocTrain n y).getD k 0 ≤ (splitCounts y).getD k 0 :=
      approximate_mode_getD_le _ _ h0 h1 k
    simp only [Function.comp_apply, List.length_take, hplen]
    omega
  rw [List.map_congr_left hcong]
  have hmr : (List.range (splitClasses y).length).map
      (fun k => (splitAllocTrain n y).getD k 0) = splitAllocTrain n y := by
    rw [← splitAllocTrain_length n y]
    exact map_getD_range _ 0
  rw [hmr, splitAllocTrain]
  exact approximate_mode_sum _ _ h0 h1

theorem splitCountsRemaining_length (n : ℕ) (y : List ℕ) :
    (splitCountsRemaining n y).length = (splitClasses y).length := by
  rw [splitCountsRemaining, List.length_zipWith, splitAllocTrain_length,
    splitCounts_length, Nat.min_self]

/-- After removing the training draws, the per-class remainders sum to
`n_test`. -/
theorem splitCountsRemaining_sum (n : ℕ) (y : List ℕ) (hn : n = y.length)
    (hpos : 0 < nTrain n) : (splitCountsRemaining n y).sum = nTest n := by
  have hny : 0 < n := by rw [nTrain] at hpos; omega
  have hsum : (splitCounts y).sum = y.length := splitCounts_sum y
  have h0 : 0 < (splitCounts y).sum := by omega
  have h1 : nTrain n ≤ (splitCounts y).sum := by
    rw [hsum, ← hn, nTrain]; omega
  have hlen : (splitAllocTrain n y).length = (splitCounts y).length := by
    rw [splitAllocTrain_length, splitCounts_length]
  have hle : ∀ j, (splitAllocTrain n y).getD j 0 ≤ (splitCounts y).getD j 0 := by
    intro j
    exact approximate_mode_getD_le _ _ h0 h1 j
  have hz := zipWith_sub_sum (splitCounts y) (splitAllocTrain n y) hlen hle
  have hals : (splitAllocTrain n y).sum = nTrain n := by
    rw [splitAllocTrain]
    exact approximate_mode_sum _ _ h0 h1
  rw [splitCountsRemaining]
  have hnt := nTrain_add_nTest hny
  omega

/-- Under the `_split` guards, the final test index list has exactly
`n_test` entries. -/
theorem testIndices_length (n : ℕ) (y : List ℕ) (hn : n = y.length)
    (hpos : 0 < nTrain n) : (testIndices n y).length = nTest n := by
  have hny : 0 < n := by rw [nTrain] at hpos; omega
  have hsum : (splitCounts y).sum = y.length := splitCounts_sum y
  have h0 : 0 < (splitCounts y).sum := by omega
  have h1 : nTrain n ≤ (splitCounts y).sum := by
    rw [hsum, ← hn, nTrain]; omega
  have hrs : (splitCountsRemaining n y).sum = nTest n := splitCountsRemaining_sum n y hn hpos
  have h0r : 0 < (splitCountsRemaining n y).sum := by
    rw [hrs]; exact nTest_pos hny
  have h1r : nTest n ≤ (splitCountsRemaining n y).sum := by rw [hrs]
  rw [testIndices, pseudoShuffle_length, List.length_flatten, testPartsOf, List.map_map]
  have hcong : ∀ k ∈ List.range (splitClasses y).length,
      (List.length ∘ fun k => ((perClassPerm y k).drop ((splitAllocTrain n y).getD k 0)).take
        ((splitAllocTest n y).getD k 0)) k
        = (fun k => (splitAllocTest n y).getD k 0) k := by
    intro k hk
    have hkK : k < (splitClasses y).length := List.mem_range.mp hk
    have hplen : (perClassPerm y k).length = (splitCounts y).getD k 0 := by
      rw [perClassPerm, pseudoShuffle_length, classIndices_getD_length y k hkK]
    have hrem : (splitCountsRemaining n y).getD k 0 =
        (splitCounts y).getD k 0 - (splitAllocTrain n y).getD k 0 := by
      rw [splitCountsRemaining]
      refine getD_zipWith _ _ _ k ?_ ?_
      · rw [splitCounts_length]; exact hkK
      · rw [splitAllocTrain_length]; exact hkK
    have hle : (splitAllocTest n y).getD k 0 ≤ (splitCountsRemaining n y).getD k 0 :=
      approximate_mode_getD_le _ _ h0r h1r k
    simp only [Function.comp_apply, List.length_take, List.length_drop, hplen]
    omega
  rw [List.map_congr_left hcong]
  have hmr : (List.range (splitClasses y).length).map
      (fun k => (splitAllocTest n y).getD k 0) = splitAllocTest n y := by
    have hlen2 : (splitAllocTest n y).length = (splitClasses y).length := by
      rw [splitAllocTest, approximate_mode_length, splitCountsRemaining_length]
    rw [← hlen2]
    exact map_getD_range _ 0
  rw [hmr, splitAllocTest]
  exact approximate_mode_sum _ _ h0r h1r

theorem iloc_nRows (X : Features) (idxs : List ℕ) :
    (X.iloc idxs).nRows = idxs.length := by
  rw [Features.iloc, Features.nRows]
  exact List.length_map _ _

/-- Anatomy of a successful `_split`: the guards all passed and the result
subscripts `X` and `y` by the same two index lists. -/
theorem _split_ok (X : Features) (y : String × List ℕ) (s : SplitDfs)
    (h : _split X y = .ok s) :
    X.index.length = y.2.length ∧ 0 < nTrain X.index.length ∧
      s = ⟨X.iloc (trainIndices X.index.length y.2),
           X.iloc (testIndices X.index.length y.2),
           (y.1, (trainIndices X.index.length y.2).map (fun i => y.2.getD i 0)),
           (y.1, (testIndices X.index.length y.2).map (fun i => y.2.getD i 0))⟩ := by
  rw [_split] at h
  split_ifs at h with h1 h2 h3 h4 h5
  any_goals cases h
  exact ⟨not_not.mp h1, Nat.pos_of_ne_zero h2, rfl⟩

/-! ## Properties of the Encoder -/

theorem npUnique_sorted {α : Type} [LinearOrder α] [DecidableEq α]
    [DecidableRel ((· ≤ ·) : α → α → Prop)] (l : List α) :
    List.Sorted (· ≤ ·) (npUnique l) := by
  rw [npUnique]
  exact (List.sorted_insertionSort _ l).sublist (List.dedup_sublist _)

theorem npUnique_nodup {α : Type} [LinearOrder α] [DecidableEq α]
    [DecidableRel ((· ≤ ·) : α → α → Prop)] (l : List α) :
    (npUnique l).Nodup := List.nodup_dedup _

theorem mem_npUnique {α : Type} [LinearOrder α] [DecidableEq α]
    [DecidableRel ((· ≤ ·) : α → α → Prop)] {a : α} {l : List α} :
    a ∈ npUnique l ↔ a ∈ l := by
  rw [npUnique, List.mem_dedup, List.mem_insertionSort]

/-- `np.unique` only depends on the multiset of values: reordering the rows
does not change the class list. -/
theorem npUnique_perm_invariant {α : Type} [LinearOrder α] [DecidableEq α]
    [DecidableRel ((· ≤ ·) : α → α → Prop)] {l₁ l₂ : List α} (h : l₁.Perm l₂) :
    npUnique l₁ = npUnique l₂ := by
  have hp : (npUnique l₁).Perm (npUnique l₂) := by
    refine (List.perm_ext_iff_of_nodup (npUnique_nodup l₁) (npUnique_nodup l₂)).mpr ?_
    intro a
    rw [mem_npUnique, mem_npUnique]
    exact h.mem_iff
  exact List.eq_of_perm_of_sorted hp (npUnique_sorted l₁) (npUnique_sorted l₂)

/-- On a duplicate-free list, `indexOf` enumerates the positions `0..K-1`
in order. -/
theorem map_indexOf_range (l : List String) (h : l.Nodup) :
    l.map (fun s => l.indexOf s) = List.range l.length := by
  induction l with
  | nil => rfl
  | cons a t ih =>
    have hna : a ∉ t := (List.nodup_cons.mp h).1
    have hnd : t.Nodup := (List.nodup_cons.mp h).2
    have hhead : (a :: t).indexOf a = 0 := List.indexOf_cons_self a t
    have htail : t.map (fun s => (a :: t).indexOf s) = t.map (fun s => t.indexOf s + 1) := by
      refine List.map_congr_left ?_
      intro s hs
      have hne : a ≠ s := fun hc => hna (hc ▸ hs)
      simpa using List.indexOf_cons_ne t hne
    rw [List.map_cons, hhead, htail, List.length_cons, List.range_succ_eq_map]
    refine congrArg (0 :: ·) ?_
    rw [← ih hnd, List.map_map]
    rfl

/-- The Python `type_mapping` is literally the sorted classes zipped with
`0..K-1`. -/
theorem encode_mapping_eq (df : DataFrame) :
    (_encode df).2.2 = (npUnique (df.labels.filterMap id)).zip
      (List.range (npUnique (df.labels.filterMap id)).length) := by
  rw [_encode]
  exact congrArg _ (map_indexOf_range _ (npUnique_nodup _))

/-- A `zip` of a list with the image of a function over it is the graph of
that function. -/
theorem zip_map_self {α β : Type} (l : List α) (f : α → β) :
    l.zip (l.map f) = l.map (fun x => (x, f x)) := by
  induction l with
  | nil => rfl
  | cons a t ih => simpa using ih

/-- `find?` on an association list with duplicate-free values finds the
unique pair carrying a given value. -/
theorem find?_snd_eq {m : List (String × ℕ)} {s : String} {c : ℕ}
    (hnd : (m.map Prod.snd).Nodup) (hmem : (s, c) ∈ m) :
    m.find? (fun p => p.2 = c) = some (s, c) := by
  induction m with
  | nil => cases hmem
  | cons a t ih =>
    have hnd' : (t.map Prod.snd).Nodup := (List.nodup_cons.mp hnd).2
    have hnm : a.2 ∉ t.map Prod.snd := (List.nodup_cons.mp hnd).1
    by_cases hpa : a.2 = c
    · rw [List.find?_cons_of_pos _ (by simpa using hpa)]
      rcases List.mem_cons.mp hmem with heq | hmem'
      · rw [heq]
      · exfalso
        apply hnm
        rw [hpa]
        exact List.mem_map_of_mem Prod.snd hmem'
    · rw [List.find?_cons_of_neg _ (by simpa using hpa)]
      rcases List.mem_cons.mp hmem with heq | hmem'
      · exfalso; apply hpa; rw [← heq]
      · exact ih hnd' hmem'

/-- Decoding the code assigned to a present label through the mapping
recovers the label. -/
theorem invLookup_encode (df : DataFrame) (s : String)
    (hs : s ∈ npUnique (df.labels.filterMap id)) :
    invLookup (_encode df).2.2
      ((npUnique (df.labels.filterMap id)).indexOf s) = some s := by
  have hmapeq := encode_mapping_eq df
  have hnd : ((_encode df).2.2.map Prod.snd).Nodup := by
    rw [hmapeq, List.map_snd_zip _ _ (by rw [List.length_range])]
    exact List.nodup_range _
  have hmem : (s, (npUnique (df.labels.filterMap id)).indexOf s) ∈ (_encode df).2.2 := by
    rw [hmapeq, ← map_indexOf_range _ (npUnique_nodup _), zip_map_self]
    exact List.mem_map_of_mem _ hs
  rw [invLookup, find?_snd_eq hnd hmem]
  rfl

theorem filterMap_congr_some {α : Type} {f : α → Option α} {l : List α}
    (h : ∀ a ∈ l, f a = some a) : l.filterMap f = l := by
  induction l with
  | nil => rfl
  | cons a t ih =>
    have ha := h a (List.mem_cons_self a t)
    have ht : ∀ a ∈ t, f a = some a := fun a haa => h a (List.mem_cons_of_mem _ haa)
    rw [List.filterMap_cons, ha, ih ht]

/-! ## Properties of the Cleaner -/

theorem le_foldr_max (ns : List ℕ) (x : ℕ) (hx : x ∈ ns) : x ≤ ns.foldr max 0 := by
  induction ns with
  | nil => cases hx
  | cons a t ih =>
    rcases List.mem_cons.mp hx with rfl | hx'
    · exact Nat.le_max_left _ _
    · exact Nat.le_trans (ih hx') (Nat.le_max_right _ _)

theorem foldr_max_mem (ns : List ℕ) : ns.foldr max 0 = 0 ∨ ns.foldr max 0 ∈ ns := by
  induction ns with
  | nil => exact Or.inl rfl
  | cons a t ih =>
    rcases max_choice a (t.foldr max 0) with h | h
    · right; rw [List.foldr_cons, h]; exact List.mem_cons_self _ _
    · rcases ih with h0 | hm
      · rw [List.foldr_cons, h, h0]
        exact Or.inl rfl
      · right; rw [List.foldr_cons, h]; exact List.mem_cons_of_mem _ hm

/-- What `Series.mode()[0]` returns on a nonempty value list: a most
frequent value, and the least one (in lexicographic order) among the most
frequent — because pandas sorts the modes before indexing. -/
theorem seriesMode_spec (l : List String) (m : String) (h : seriesMode l = some m) :
    m ∈ l ∧ (∀ v ∈ l, l.count v ≤ l.count m) ∧
      (∀ v ∈ l, l.count v = l.count m → m ≤ v) := by
  rw [seriesMode] at h
  set mx := ((npUnique l).map (fun v => l.count v)).foldr max 0 with hmx
  set flt := (npUnique l).filter (fun v => l.count v = mx) with hflt
  have hsortedflt : List.Sorted (· ≤ ·) flt := by
    rw [hflt]
    exact (npUnique_sorted l).sublist (List.filter_sublist _)
  cases hcases : flt with
  | nil => rw [hcases] at h; cases h
  | cons b rest =>
    rw [hcases] at h
    have hmb : m = b := by
      have : some b = some m := by simpa using h
      exact (Option.some.injEq _ _ ▸ this).symm
    subst hmb
    have hmflt : m ∈ flt := by rw [hcases]; exact List.mem_cons_self _ _
    have hmu : m ∈ npUnique l := List.mem_of_mem_filter hmflt
    have hcm : l.count m = mx := by simpa using List.of_mem_filter hmflt
    refine ⟨mem_npUnique.mp hmu, ?_, ?_⟩
    · intro v hv
      have hvu : v ∈ npUnique l := mem_npUnique.mpr hv
      have : l.count v ≤ mx := le_foldr_max _ _ (List.mem_map_of_mem _ hvu)
      omega
    · intro v hv hcv
      have hvu : v ∈ npUnique l := mem_npUnique.mpr hv
      have hvflt : v ∈ flt := by
        rw [hflt]
        refine List.mem_filter.mpr ⟨hvu, ?_⟩
        simp [hcv, hcm]
      rw [hcases] at hvflt
      rcases List.mem_cons.mp hvflt with rfl | hvrest
      · exact le_refl _
      · have := hsortedflt
        rw [hcases, List.sorted_cons] at this
        exact this.1 v hvrest

/-- `Series.mode()` is nonempty on a nonempty value list. -/
theorem seriesMode_isSome (l : List String) (hne : l ≠ []) :
    ∃ m, seriesMode l = some m := by
  rw [seriesMode]
  set mx := ((npUnique l).map (fun v => l.count v)).foldr max 0 with hmx
  obtain ⟨a, ha⟩ := List.exists_mem_of_ne_nil l hne
  have hau : a ∈ npUnique l := mem_npUnique.mpr ha
  have hca : 0 < l.count a := List.count_pos_iff.mpr ha
  have hamx : l.count a ≤ mx := le_foldr_max _ _ (List.mem_map_of_mem _ hau)
  have hmxpos : 0 < mx := by omega
  rcases foldr_max_mem ((npUnique l).map (fun v => l.count v)) with h0 | hmem
  · rw [← hmx] at h0; omega
  · rw [← hmx] at hmem
    obtain ⟨v, hvu, hveq⟩ := List.mem_map.mp hmem
    have hvflt : v ∈ (npUnique l).filter (fun v => l.count v = mx) :=
      List.mem_filter.mpr ⟨hvu, by simp [hveq]⟩
    cases hcase : (npUnique l).filter (fun v => l.count v = mx) with
    | nil => rw [hcase] at hvflt; cases hvflt
    | cons b rest => exact ⟨b, rfl⟩

/-- Anatomy of a successful `_clean`: names preserved, features filled with
`0` and truncated, labels either untouched (no missing label) or filled
with the mode. -/
theorem _clean_ok_struct (df : DataFrame) (out : DataFrame) (h : _clean df = .ok out) :
    out.featNames = df.featNames ∧ out.labelName = df.labelName ∧
      out.feats = df.feats.map (fun col => col.map (fun c => some (ratTrunc (c.getD 0)))) ∧
      (if df.labels.any Option.isNone then
        ∃ m, seriesMode (df.labels.filterMap id) = some m ∧
          out.labels = df.labels.map (fun o => some (o.getD m))
      else out.labels = df.labels) := by
  have hfeats : ∀ feats1 : List (List (Option ℚ)),
      (feats1.map (fun col => col.map (fun c => some (c.getD 0)))).map astypeIntCol =
        feats1.map (fun col => col.map (fun c => some (ratTrunc (c.getD 0)))) := by
    intro feats1
    rw [List.map_map]
    refine List.map_congr_left ?_
    intro col _
    rw [Function.comp_apply, astypeIntCol, List.map_map]
    rfl
  rw [_clean] at h
  split_ifs at h with h1 h2
  · cases hm : seriesMode (df.labels.filterMap id) with
    | none => rw [hm] at h; cases h
    | some m =>
      rw [hm] at h
      cases h
      refine ⟨rfl, rfl, hfeats df.feats, ?_⟩
      rw [if_pos h2]
      exact ⟨m, rfl, rfl⟩
  · cases h
    exact ⟨rfl, rfl, hfeats df.feats, by rw [if_neg h2]⟩
  · cases h
    have h2 : ¬ df.labels.any Option.isNone = true := by
      intro hc
      exact h1 (by rw [hc, Bool.or_true])
    refine ⟨rfl, rfl, ?_, by rw [if_neg h2]⟩
    rfl

/-! ## The pipeline composition -/

/-- Anatomy of a successful `transform_data`: the Cleaner succeeded, the
Splitter succeeded on the Encoder's output, and the returned mapping is the
Encoder's. -/
theorem transform_data_ok (df : DataFrame) (r : SplitDfs × List (String × ℕ))
    (h : transform_data df = .ok r) :
    ∃ cleaned, _clean df = .ok cleaned ∧
      _split (_encode cleaned).1 (_encode cleaned).2.1 = .ok r.1 ∧
      r.2 = (_encode cleaned).2.2 := by
  rw [transform_data] at h
  cases hc : _clean df with
  | error e => rw [hc] at h; cases h
  | ok cleaned =>
    rw [hc] at h
    dsimp only at h
    cases hs : _split (_encode cleaned).1 (_encode cleaned).2.1 with
    | error e =>
      rw [hs] at h
      cases h
    | ok s =>
      rw [hs] at h
      cases h
      exact ⟨cleaned, rfl, hs, rfl⟩

/-- Appending on the left is cancellative for strings. -/
theorem string_append_left_cancel {p a b : String} (h : p ++ a = p ++ b) : a = b := by
  have hd : (p ++ a).data = (p ++ b).data := congrArg String.data h
  rw [String.data_append, String.data_append] at hd
  have h2 : a.data = b.data := List.append_cancel_left hd
  exact congrArg String.mk h2

/-! ## The claims -/

/-- C1 (counterexample): on the spec's own scenario — a 50-row table in
which the label `"B"` occurs exactly once — the Splitter *does* raise
(sklearn's stratified split refuses classes with fewer than 2 members), so
the pipeline returns the `ValueError` instead of falling back to a
non-stratified assignment; no partition is produced and the singleton row
is not placed anywhere, contradicting the claim. -/
theorem C1_counterexample :
    c1df.labels.length = 50 ∧ c1df.labels.count (some "B") = 1 ∧
      transform_data c1df = .error "The least populated class in y has only 1 member, which is too few. The minimum number of groups for any class cannot be less than 2." := by
  refine ⟨by decide, by decide, by decide⟩

/-- C1 (amended): whenever some label code occurs exactly once in the
Splitter's input, `_split` raises (it never falls back to a non-stratified
assignment and the singleton row lands in no partition). -/
theorem C1_singleton_class_raises (X : Features) (y : String × List ℕ) (c : ℕ)
    (h1 : y.2.count c = 1) : (_split X y).isOk = false := by
  rw [_split]
  split_ifs with g1 g2 g3 g4 g5
  any_goals rfl
  exfalso
  apply g3
  rw [List.any_eq_true]
  have hc : c ∈ y.2 := by
    by_contra hnc
    rw [List.count_eq_zero_of_not_mem hnc] at h1
    cases h1
  have hcc : c ∈ splitClasses y.2 := by
    rw [splitClasses]
    exact mem_npUnique.mpr hc
  refine ⟨y.2.count c, ?_, ?_⟩
  · rw [splitCounts]
    exact List.mem_map_of_mem _ hcc
  · rw [h1]
    decide

/-- C1 (witness for the amended claim): a 3-row input with a singleton
class makes `_split` fail. -/
theorem C1_singleton_class_raises_witness :
    ([0, 0, 1] : List ℕ).count 1 = 1 ∧
      (_split ⟨["f"], [[some 1, some 1, some 1]], List.range 3⟩
        ("target", [0, 0, 1])).isOk = false :=
  ⟨by decide, C1_singleton_class_raises _ _ 1 (by decide)⟩

/-- C2 (counterexample): when `os.makedirs` fails (e.g. with
`EACCES: Permission denied`), the Writer prints the error, writes nothing
— and surfaces *no* error to the caller (second component `none`): the
failure is silently swallowed instead of raising a `StorageError`. -/
theorem C2_counterexample :
    load_data c2data "data/processed" (some "Permission denied") = ([], none) := rfl

/-- C2 (amended): the Writer attempts `os.makedirs(path, exist_ok=True)`
(so an already-existing directory is not an error); if directory creation
fails for any other reason it logs and returns without writing any file
and without raising — no `StorageError` reaches the caller.  On success it
writes the four partition files and the mapping file. -/
theorem C2_mkdir_failure_swallowed (d : SplitDfs × List (String × ℕ)) (path : String) :
    (∀ e, load_data d path (some e) = ([], none)) ∧
      (load_data d path none).2 = none ∧
      (load_data d path none).1 =
        [ (path ++ "/X_train.csv", .frame d.1.X_train.names d.1.X_train.cols),
          (path ++ "/X_test.csv", .frame d.1.X_test.names d.1.X_test.cols),
          (path ++ "/y_train.csv", .series d.1.y_train.1 d.1.y_train.2),
          (path ++ "/y_test.csv", .series d.1.y_test.1 d.1.y_test.2),
          (path ++ "/label_mapping.json", .jsonMap d.2) ] :=
  ⟨fun _ => rfl, rfl, rfl⟩

/-- C7: for every input the Splitter accepts, the train and test row
counts add up to the input row count, the feature and label partitions on
each side are equally long (rows aligned: both sides subscript by the same
index list, cf. `_split_ok`), and the label partitions exhaust `y`. -/
theorem C7_split_completeness (X : Features) (y : String × List ℕ) (s : SplitDfs)
    (h : _split X y = .ok s) :
    s.X_train.nRows + s.X_test.nRows = X.nRows ∧
      s.X_train.nRows = s.y_train.2.length ∧
      s.X_test.nRows = s.y_test.2.length ∧
      s.y_train.2.length + s.y_test.2.length = y.2.length := by
  obtain ⟨hlen, hpos, hseq⟩ := _split_ok X y s h
  subst hseq
  dsimp only
  simp only [iloc_nRows, List.length_map]
  have htr := trainIndices_length X.index.length y.2 hlen hpos
  have hte := testIndices_length X.index.length y.2 hlen hpos
  have hnn : 0 < X.index.length := by rw [nTrain] at hpos; omega
  have hsum := nTrain_add_nTest hnn
  rw [Features.nRows]
  refine ⟨by omega, ?_, ?_, by omega⟩ <;> trivial

/-- C7 (witness): a concrete 10-row, two-class input is split 8/2 with
aligned partitions. -/
theorem C7_split_completeness_witness :
    _split c7X c7y = .ok c7s ∧
      (c7s.X_train.nRows + c7s.X_test.nRows = c7X.nRows ∧
        c7s.X_train.nRows = c7s.y_train.2.length ∧
        c7s.X_test.nRows = c7s.y_test.2.length ∧
        c7s.y_train.2.length + c7s.y_test.2.length = c7y.2.length) :=
  ⟨by decide, C7_split_completeness c7X c7y c7s (by decide)⟩

/-- C8: on `FileNotFoundError` the Reader catches the exception and
returns the empty-frame sentinel `pd.DataFrame()` — zero rows and zero
columns — rather than propagating the failure. -/
theorem C8_missing_file_sentinel :
    extract_data (.error .fileNotFound) = .ok ⟨[]⟩ ∧
      (RawTable.mk []).nRows = 0 ∧ (RawTable.mk []).nCols = 0 :=
  ⟨rfl, rfl, rfl⟩

/-- C9: the Cleaner→Encoder→Splitter pipeline is a pure function of the
input table — the split seed is the constant `random_state=42` baked into
`_split`, so two runs on the same table produce identical partitions and
mapping. -/
theorem C9_pipeline_deterministic (df1 df2 : DataFrame) (h : df1 = df2) :
    transform_data df1 = transform_data df2 := by rw [h]

/-- C9 (witness): two runs on the same concrete 10-row table agree. -/
theorem C9_pipeline_deterministic_witness :
    transform_data c9df = transform_data c9df :=
  C9_pipeline_deterministic c9df c9df rfl

/-- C3: the Encoder's mapping is the sorted distinct labels (`np.unique`)
zipped with the dense codes `0..K-1`; it is therefore invariant under any
reordering of the rows, the class list is lexicographically sorted and
duplicate-free and carries exactly the labels present, and each row's code
is its label's position in that sorted class list. -/
theorem C3_encoder_sorted_dense_codes (df df' : DataFrame)
    (hperm : (df.labels.filterMap id).Perm (df'.labels.filterMap id)) :
    (_encode df).2.2 = (_encode df').2.2 ∧
      (_encode df).2.2 = (npUnique (df.labels.filterMap id)).zip
        (List.range (npUnique (df.labels.filterMap id)).length) ∧
      List.Sorted (· ≤ ·) (npUnique (df.labels.filterMap id)) ∧
      (npUnique (df.labels.filterMap id)).Nodup ∧
      (∀ s, s ∈ npUnique (df.labels.filterMap id) ↔ s ∈ df.labels.filterMap id) ∧
      ((_encode df).2.1).2 = (df.labels.filterMap id).map
        (fun s => (npUnique (df.labels.filterMap id)).indexOf s) := by
  have hcl : npUnique (df.labels.filterMap id) = npUnique (df'.labels.filterMap id) :=
    npUnique_perm_invariant hperm
  refine ⟨?_, encode_mapping_eq df, npUnique_sorted _, npUnique_nodup _,
    fun s => mem_npUnique, rfl⟩
  rw [encode_mapping_eq df, encode_mapping_eq df', hcl]

/-- C3 (witness): the two orderings of the labels `A`, `B` produce the
same mapping. -/
theorem C3_encoder_sorted_dense_codes_witness :
    (c3dfA.labels.filterMap id).Perm (c3dfB.labels.filterMap id) ∧
      ((_encode c3dfA).2.2 = (_encode c3dfB).2.2 ∧
        (_encode c3dfA).2.2 = (npUnique (c3dfA.labels.filterMap id)).zip
          (List.range (npUnique (c3dfA.labels.filterMap id)).length) ∧
        List.Sorted (· ≤ ·) (npUnique (c3dfA.labels.filterMap id)) ∧
        (npUnique (c3dfA.labels.filterMap id)).Nodup ∧
        (∀ s, s ∈ npUnique (c3dfA.labels.filterMap id) ↔
          s ∈ c3dfA.labels.filterMap id) ∧
        ((_encode c3dfA).2.1).2 = (c3dfA.labels.filterMap id).map
          (fun s => (npUnique (c3dfA.labels.filterMap id)).indexOf s)) :=
  ⟨List.Perm.swap "A" "B" [],
   C3_encoder_sorted_dense_codes c3dfA c3dfB (List.Perm.swap "A" "B" [])⟩

/-- The codes in the Encoder's mapping are pairwise distinct. -/
theorem mapping_snd_nodup (df : DataFrame) :
    ((_encode df).2.2.map Prod.snd).Nodup := by
  rw [encode_mapping_eq df, List.map_snd_zip _ _ (by rw [List.length_range])]
  exact List.nodup_range _

/-- C4: decoding every output code through the inverse of the returned
mapping reconstructs the original label multiset exactly (here even the
original label list, which is stronger), and the mapping is one-to-one:
distinct labels never share a code. -/
theorem C4_encoding_invertible (df : DataFrame) :
    (↑(((_encode df).2.1).2.filterMap (invLookup (_encode df).2.2)) : Multiset String) =
      ↑(df.labels.filterMap id) ∧
      ∀ p ∈ (_encode df).2.2, ∀ q ∈ (_encode df).2.2, p.2 = q.2 → p.1 = q.1 := by
  constructor
  · refine congrArg (fun l : List String => (↑l : Multiset String)) ?_
    show ((df.labels.filterMap id).map
        (fun s => (npUnique (df.labels.filterMap id)).indexOf s)).filterMap
        (invLookup (_encode df).2.2) = df.labels.filterMap id
    rw [List.filterMap_map]
    refine filterMap_congr_some ?_
    intro s hs
    exact invLookup_encode df s (mem_npUnique.mpr hs)
  · intro p hp q hq hpq
    have hnd := mapping_snd_nodup df
    have hqm : (q.1, p.2) ∈ (_encode df).2.2 := by rw [hpq]; exact hq
    have h1 : (_encode df).2.2.find? (fun x => x.2 = p.2) = some (p.1, p.2) :=
      find?_snd_eq hnd hp
    have h2 : (_encode df).2.2.find? (fun x => x.2 = p.2) = some (q.1, p.2) :=
      find?_snd_eq hnd hqm
    rw [h1] at h2
    injection h2 with h3
    have h4 := congrArg Prod.fst h3
    exact h4

/-- C5 (counterexample): the Cleaner does *not* leave all non-missing
cells unchanged — `astype(int)` truncates the present feature value `5/2`
to `2`. -/
theorem C5_counterexample :
    _clean c5cexdf = .ok ⟨["f"], [[some 2]], "L", [some "x"]⟩ ∧
      c5cexdf.feats = [[some (mkRat 5 2)]] ∧ (mkRat 5 2 : ℚ) ≠ 2 :=
  ⟨by decide, by decide, by decide⟩

/-- C5 (amended): whenever the Cleaner succeeds, its output has the same
column names and shape as the input and no missing values; every feature
cell is the input cell with missing replaced by `0` and the value truncated
toward zero (`astype(int)`); present labels are unchanged (missing labels
are replaced by the mode — see C6). -/
theorem C5_clean_shape_and_fill (df out : DataFrame) (h : _clean df = .ok out) :
    out.featNames = df.featNames ∧ out.labelName = df.labelName ∧
      out.feats.length = df.feats.length ∧
      (∀ j, (out.feats.getD j []).length = (df.feats.getD j []).length) ∧
      out.labels.length = df.labels.length ∧
      (∀ col ∈ out.feats, ∀ c ∈ col, c.isSome = true) ∧
      (∀ o ∈ out.labels, o.isSome = true) ∧
      out.feats = df.feats.map (fun col => col.map (fun c => some (ratTrunc (c.getD 0)))) ∧
      (∀ i, (df.labels.getD i none).isSome = true →
        out.labels.getD i none = df.labels.getD i none) := by
  obtain ⟨hn, hl, hf, hlab⟩ := _clean_ok_struct df out h
  refine ⟨hn, hl, by rw [hf, List.length_map], ?_, ?_, ?_, ?_, hf, ?_⟩
  · intro j
    by_cases hj : j < df.feats.length
    · rw [hf, getD_map df.feats _ j hj [] [], List.length_map]
    · have hj1 : df.feats.length ≤ j := by omega
      have hj2 : (df.feats.map (fun col => col.map
          (fun c => some (ratTrunc (c.getD 0))))).length ≤ j := by
        rw [List.length_map]; omega
      rw [hf, List.getD_eq_default _ _ hj2, List.getD_eq_default _ _ hj1]
  · by_cases hna : df.labels.any Option.isNone = true
    · rw [if_pos hna] at hlab
      obtain ⟨m, _, hm⟩ := hlab
      rw [hm, List.length_map]
    · rw [if_neg hna] at hlab
      rw [hlab]
  · intro col hcol c hc
    rw [hf] at hcol
    obtain ⟨col0, _, rfl⟩ := List.mem_map.mp hcol
    obtain ⟨c0, _, rfl⟩ := List.mem_map.mp hc
    rfl
  · by_cases hna : df.labels.any Option.isNone = true
    · rw [if_pos hna] at hlab
      obtain ⟨m, _, hm⟩ := hlab
      intro o ho
      rw [hm] at ho
      obtain ⟨o0, _, rfl⟩ := List.mem_map.mp ho
      rfl
    · rw [if_neg hna] at hlab
      intro o ho
      rw [hlab] at ho
      have h2 : ¬ ∃ x, x ∈ df.labels ∧ x.isNone = true := by
        intro hc
        exact hna (List.any_eq_true.mpr (by simpa using hc))
      cases o with
      | some v => rfl
      | none => exact absurd ⟨none, ho, rfl⟩ h2
  · intro i hi
    by_cases hilen : i < df.labels.length
    · by_cases hna : df.labels.any Option.isNone = true
      · rw [if_pos hna] at hlab
        obtain ⟨m, _, hm⟩ := hlab
        rw [hm, getD_map df.labels _ i hilen none none]
        cases hcase : df.labels.getD i none with
        | none => rw [hcase] at hi; cases hi
        | some v => rfl
      · rw [if_neg hna] at hlab
        rw [hlab]
    · have : df.labels.length ≤ i := by omega
      rw [List.getD_eq_default _ _ this] at hi
      cases hi

/-- C5 (witness): on a concrete table with a missing feature cell, a
fractional feature cell and a missing label, the Cleaner behaves as the
amended claim states. -/
theorem C5_clean_shape_and_fill_witness :
    _clean c5wdf = .ok c5wout ∧
      (c5wout.featNames = c5wdf.featNames ∧ c5wout.labelName = c5wdf.labelName ∧
        c5wout.feats.length = c5wdf.feats.length ∧
        (∀ j, (c5wout.feats.getD j []).length = (c5wdf.feats.getD j []).length) ∧
        c5wout.labels.length = c5wdf.labels.length ∧
        (∀ col ∈ c5wout.feats, ∀ c ∈ col, c.isSome = true) ∧
        (∀ o ∈ c5wout.labels, o.isSome = true) ∧
        c5wout.feats = c5wdf.feats.map
          (fun col => col.map (fun c => some (ratTrunc (c.getD 0)))) ∧
        (∀ i, (c5wdf.labels.getD i none).isSome = true →
          c5wout.labels.getD i none = c5wdf.labels.getD i none)) :=
  ⟨by decide, C5_clean_shape_and_fill c5wdf c5wout (by decide)⟩

/-- C6 (counterexample): with labels `B, B, A, A` present and one missing
label, the two most frequent labels tie; a frequency-count traversal in
first-encounter order would yield `"B"`, but the Cleaner (pandas
`mode()[0]`, which sorts the modes) fills the missing label with `"A"` —
the claimed tie-break is not the implemented one. -/
theorem C6_counterexample :
    _clean c6df = .ok ⟨["f"], [[some 0, some 0, some 0, some 0, some 0]], "L",
        [some "B", some "B", some "A", some "A", some "A"]⟩ ∧
      (c6df.labels.filterMap id).count "A" = (c6df.labels.filterMap id).count "B" ∧
      firstEncounterMode (c6df.labels.filterMap id) = some "B" ∧
      ("A" : String) ≠ "B" :=
  ⟨by decide, by decide, by decide, by decide⟩

/-- C6 (amended): when the label column has missing values (and the
Cleaner succeeds), the fill value is the mode of the present labels —
computed after feature imputation (which does not touch the label column)
and before substitution — and among equally frequent labels it is the
*lexicographically least* (pandas sorts the modes and the code takes
element `[0]`). -/
theorem C6_mode_lex_tiebreak (df out : DataFrame)
    (h : _clean df = .ok out) (hna : df.labels.any Option.isNone = true) :
    ∃ m, seriesMode (df.labels.filterMap id) = some m ∧
      m ∈ df.labels.filterMap id ∧
      (∀ v ∈ df.labels.filterMap id,
        (df.labels.filterMap id).count v ≤ (df.labels.filterMap id).count m) ∧
      (∀ v ∈ df.labels.filterMap id,
        (df.labels.filterMap id).count v = (df.labels.filterMap id).count m → m ≤ v) ∧
      out.labels = df.labels.map (fun o => some (o.getD m)) := by
  obtain ⟨_, _, _, hlab⟩ := _clean_ok_struct df out h
  rw [if_pos hna] at hlab
  obtain ⟨m, hm, hl⟩ := hlab
  obtain ⟨h1, h2, h3⟩ := seriesMode_spec _ m hm
  exact ⟨m, hm, h1, h2, h3, hl⟩

/-- C6 (witness): on the concrete tied table the Cleaner fills with the
lexicographically least mode. -/
theorem C6_mode_lex_tiebreak_witness :
    _clean c6df = .ok c6out ∧ c6df.labels.any Option.isNone = true ∧
      (∃ m, seriesMode (c6df.labels.filterMap id) = some m ∧
        m ∈ c6df.labels.filterMap id ∧
        (∀ v ∈ c6df.labels.filterMap id,
          (c6df.labels.filterMap id).count v ≤ (c6df.labels.filterMap id).count m) ∧
        (∀ v ∈ c6df.labels.filterMap id,
          (c6df.labels.filterMap id).count v = (c6df.labels.filterMap id).count m →
            m ≤ v) ∧
        c6out.labels = c6df.labels.map (fun o => some (o.getD m))) :=
  ⟨by decide, by decide, C6_mode_lex_tiebreak c6df c6out (by decide) (by decide)⟩

/-- C10: the Encoder names the encoded label Series `'target'` whatever
the input's label column is called, the Splitter propagates that name to
both label partitions, and the Writer therefore writes `y_train.csv` and
`y_test.csv` with header `target`. -/
theorem C10_target_header (df : DataFrame) (r : SplitDfs × List (String × ℕ))
    (path : String) (h : transform_data df = .ok r) :
    r.1.y_train.1 = "target" ∧ r.1.y_test.1 = "target" ∧
      (load_data r path none).1.lookup (path ++ "/y_train.csv") =
        some (.series "target" r.1.y_train.2) ∧
      (load_data r path none).1.lookup (path ++ "/y_test.csv") =
        some (.series "target" r.1.y_test.2) := by
  obtain ⟨cleaned, hc, hs, hm⟩ := transform_data_ok df r h
  obtain ⟨_, _, hseq⟩ := _split_ok _ _ _ hs
  have hytr : r.1.y_train.1 = "target" := by rw [hseq]; rfl
  have hyte : r.1.y_test.1 = "target" := by rw [hseq]; rfl
  have hne : ∀ a b : String, a ≠ b → ((path ++ a : String) == path ++ b) = false := by
    intro a b hab
    refine beq_eq_false_iff_ne.mpr ?_
    intro hcontr
    exact hab (string_append_left_cancel hcontr)
  have h1 := hne "/y_train.csv" "/X_train.csv" (by decide)
  have h2 := hne "/y_train.csv" "/X_test.csv" (by decide)
  have h3 := hne "/y_test.csv" "/X_train.csv" (by decide)
  have h4 := hne "/y_test.csv" "/X_test.csv" (by decide)
  have h5 := hne "/y_test.csv" "/y_train.csv" (by decide)
  refine ⟨hytr, hyte, ?_, ?_⟩
  · rw [load_data]
    simp only [List.lookup, h1, h2, beq_self_eq_true]
    rw [hytr]
  · rw [load_data]
    simp only [List.lookup, h3, h4, h5, beq_self_eq_true]
    rw [hyte]

/-- C10 (witness): a concrete pipeline run whose label column is named
`Disease` still persists label partitions with header `target`. -/
theorem C10_target_header_witness :
    transform_data c10df = .ok c10r ∧
      (c10r.1.y_train.1 = "target" ∧ c10r.1.y_test.1 = "target" ∧
        (load_data c10r "data/processed" none).1.lookup
          ("data/processed" ++ "/y_train.csv") =
          some (.series "target" c10r.1.y_train.2) ∧
        (load_data c10r "data/processed" none).1.lookup
          ("data/processed" ++ "/y_test.csv") =
          some (.series "target" c10r.1.y_test.2)) :=
  ⟨by decide, C10_target_header c10df c10r "data/processed" (by decide)⟩

end DataPipeline
